import Mathlib

/-!
Verification of the markdown-to-Google-Docs conversion core of `gogcli`
(`internal/cmd/docs.go`): the line tokenizer, inline span extractor,
document assembler, edit-request emitter, and the `write`/`append`/`clear`
entry points.

Go strings are modelled as `List Char` (Go iterates runes; the marker
patterns searched for are ASCII, so byte positions of pattern occurrences
coincide with character positions for slicing purposes).  Go `int64`
offsets are modelled as `Int` (the counts involved are tiny, so overflow
is not at stake).  Loops that are not structurally recursive are given a
fuel parameter so that all definitions evaluate by kernel reduction; the
fuel chosen by each wrapper strictly dominates the loop's decreasing
measure, so the out-of-fuel branch is unreachable.
-/

namespace Gogcli

/-- Model of `utf16CodeUnitCount` (docs.go:325): the number of UTF-16 code
units in a string; characters outside the Basic Multilingual Plane
(code point ≥ 0x10000) count as 2 units (surrogate pair), others as 1. -/
def utf16CodeUnitCount : List Char → Int
  | [] => 0
  | c :: rest => (if 0x10000 ≤ c.toNat then 2 else 1) + utf16CodeUnitCount rest

/-- UTF-8 byte length of one character, as Go `len(string)` counts it. -/
def utf8CharBytes (c : Char) : Nat :=
  if c.toNat < 0x80 then 1
  else if c.toNat < 0x800 then 2
  else if c.toNat < 0x10000 then 3
  else 4

/-- Model of Go `len(s)` on a string: total UTF-8 byte length. -/
def goStringLen : List Char → Nat
  | [] => 0
  | c :: rest => utf8CharBytes c + goStringLen rest

/-- Model of `strings.Index(s, pat)` for a non-empty ASCII pattern:
position of the first occurrence of `pat` in `s`, or `none` (Go: -1).
Positions are character positions; for the ASCII patterns used by the
parser these coincide with Go's byte positions for slicing. -/
def strIndex (pat : List Char) : List Char → Option Nat
  | [] => if pat.isPrefixOf ([] : List Char) then some 0 else none
  | c :: rest =>
      if pat.isPrefixOf (c :: rest) then some 0
      else (strIndex pat rest).map (· + 1)

/-- Model of the `formatRange` record (docs.go:532): a recorded emphasis
span.  The source field `end` is named `stop` (`end` is a Lean keyword). -/
structure FormatRange where
  start : Int
  stop : Int
  bold : Bool
  italic : Bool
  deriving DecidableEq, Repr

/-- The two-character bold marker. -/
def boldMarker : List Char := ['*', '*']

/-- The one-character italic marker. -/
def italicMarker : List Char := ['*']

/-- The marker-selection condition of the scanning loop (docs.go:607,629):
Go picks the bold branch when `boldStart != -1 && (italicStart == -1 ||
boldStart <= italicStart)`, the italic branch when a single `*` exists
otherwise, and stops when neither marker occurs.  `some (true, p)` means
the bold branch at position `p`; `some (false, p)` the italic branch. -/
def pickMarker : Option Nat → Option Nat → Option (Bool × Nat)
  | none, none => none
  | some boldStart, none => some (true, boldStart)
  | some boldStart, some italicStart =>
      if boldStart ≤ italicStart then some (true, boldStart)
      else some (false, italicStart)
  | none, some italicStart => some (false, italicStart)

/-- Model of the inline bold/italic scanning loop of `writeMarkdownToDoc`
(docs.go:598-652).  `tempText` is the unscanned suffix, `currentOffset`
the UTF-16 length of the clean text accumulated so far.  Returns the
clean text contributed by `tempText` together with the recorded ranges.
The loop strictly shrinks `tempText`, so `fuel = tempText.length + 1`
(as supplied by `extractSpans`) never reaches the out-of-fuel branch. -/
def scanSpans : Nat → List Char → Int → List Char × List FormatRange
  | 0, tempText, _ => (tempText, [])
  | fuel + 1, tempText, currentOffset =>
    match pickMarker (strIndex boldMarker tempText)
        (strIndex italicMarker tempText) with
    | none => (tempText, [])
    | some (true, boldStart) =>
        -- the bold branch (docs.go:607-628)
        let beforeBold := tempText.take boldStart
        let afterOpen := tempText.drop (boldStart + 2)
        match strIndex boldMarker afterOpen with
        | some boldEnd =>
            let innerText := afterOpen.take boldEnd
            let r : FormatRange :=
              ⟨currentOffset + utf16CodeUnitCount beforeBold,
               currentOffset + utf16CodeUnitCount beforeBold +
                 utf16CodeUnitCount innerText, true, false⟩
            let rest := scanSpans fuel (afterOpen.drop (boldEnd + 2))
              (currentOffset + utf16CodeUnitCount beforeBold +
                utf16CodeUnitCount innerText)
            (beforeBold ++ innerText ++ rest.1, r :: rest.2)
        | none =>
            let rest := scanSpans fuel afterOpen
              (currentOffset + utf16CodeUnitCount beforeBold + 2)
            (beforeBold ++ boldMarker ++ rest.1, rest.2)
    | some (false, italicStart) =>
        -- the italic branch (docs.go:629-651)
        let beforeItalic := tempText.take italicStart
        let afterOpen := tempText.drop (italicStart + 1)
        match strIndex italicMarker afterOpen with
        | some italicEnd =>
            let innerText := afterOpen.take italicEnd
            let r : FormatRange :=
              ⟨currentOffset + utf16CodeUnitCount beforeItalic,
               currentOffset + utf16CodeUnitCount beforeItalic +
                 utf16CodeUnitCount innerText, false, true⟩
            let rest := scanSpans fuel (afterOpen.drop (italicEnd + 1))
              (currentOffset + utf16CodeUnitCount beforeItalic +
                utf16CodeUnitCount innerText)
            (beforeItalic ++ innerText ++ rest.1, r :: rest.2)
        | none =>
            let rest := scanSpans fuel afterOpen
              (currentOffset + utf16CodeUnitCount beforeItalic + 1)
            (beforeItalic ++ italicMarker ++ rest.1, rest.2)

/-- The span extractor applied to a whole line remainder: clean text and
emphasis ranges, offsets counted from 0 (docs.go:594-652). -/
def extractSpans (text : List Char) : List Char × List FormatRange :=
  scanSpans (text.length + 1) text 0

/-- Model of Go `unicode.IsSpace`: the White_Space property. -/
def goIsSpace (c : Char) : Bool :=
  decide (c.toNat = 9 ∨ c.toNat = 10 ∨ c.toNat = 11 ∨ c.toNat = 12 ∨
    c.toNat = 13 ∨ c.toNat = 32 ∨ c.toNat = 0x85 ∨ c.toNat = 0xA0 ∨
    c.toNat = 0x1680 ∨ (0x2000 ≤ c.toNat ∧ c.toNat ≤ 0x200A) ∨
    c.toNat = 0x2028 ∨ c.toNat = 0x2029 ∨ c.toNat = 0x202F ∨
    c.toNat = 0x205F ∨ c.toNat = 0x3000)

/-- Model of `strings.TrimSpace`: drop White_Space from both ends. -/
def goTrimSpace (s : List Char) : List Char :=
  ((s.dropWhile goIsSpace).reverse.dropWhile goIsSpace).reverse

/-- Model of `strings.TrimRight(s, "\r")`: drop all trailing `'\r'`. -/
def goTrimRightCR (s : List Char) : List Char :=
  (s.reverse.dropWhile (· == '\r')).reverse

/-- Model of `strings.TrimPrefix`: drop `pre` when it is a prefix of `s`,
otherwise return `s` unchanged. -/
def goTrimPrefix (s pre : List Char) : List Char :=
  if pre.isPrefixOf s then s.drop pre.length else s

/-- Model of the `segment` record (docs.go:538): one line's contribution.
`text` is the marker-stripped plain text terminated by a newline;
`style` is one of `"HEADING_1"`, `"HEADING_2"`, `"HEADING_3"`,
`"NORMAL_TEXT"`. -/
structure Segment where
  text : List Char
  style : String
  isBullet : Bool
  isNumbered : Bool
  ranges : List FormatRange
  deriving DecidableEq, Repr

/-- The heading switch of the tokenizer (docs.go:567-579): matching is
done on the trimmed line, but the prefix is stripped (via
`strings.TrimPrefix`) from the untrimmed line. -/
def headingSplit (line trimmed : List Char) : String × List Char :=
  if ("### ".data).isPrefixOf trimmed then
    ("HEADING_3", goTrimPrefix line ("### ".data))
  else if ("## ".data).isPrefixOf trimmed then
    ("HEADING_2", goTrimPrefix line ("## ".data))
  else if ("# ".data).isPrefixOf trimmed then
    ("HEADING_1", goTrimPrefix line ("# ".data))
  else
    ("NORMAL_TEXT", line)

/-- The list-item check of the tokenizer (docs.go:582-590), applied only
to `NORMAL_TEXT` lines: `- ` or `* ` starts a bullet item (2-character
prefix stripped), `<digit>. ` a numbered item (3-character prefix
stripped).  Go indexes bytes; since an ASCII digit, `'.'` and `' '` are
single-byte and multi-byte characters never match them, the byte tests
coincide with the character tests below. -/
def listSplit (text : List Char) : Bool × Bool × List Char :=
  if ("- ".data).isPrefixOf text ∨ ("* ".data).isPrefixOf text then
    (true, false, text.drop 2)
  else if 3 ≤ text.length ∧
      ('0' ≤ text.getD 0 ' ' ∧ text.getD 0 ' ' ≤ '9') ∧
      text.getD 1 ' ' = '.' ∧ text.getD 2 ' ' = ' ' then
    (false, true, text.drop 3)
  else
    (false, false, text)

/-- Model of the per-line body of the tokenizer loop (docs.go:549-656):
strip trailing carriage returns, emit a bare-newline `NORMAL_TEXT`
segment for blank lines and `---` rules, otherwise classify the heading,
the list kind, and run the span extractor; the segment text is the clean
text plus a newline. -/
def processLine (rawLine : List Char) : Segment :=
  let line := goTrimRightCR rawLine
  let trimmed := goTrimSpace line
  if trimmed = [] then ⟨['\n'], "NORMAL_TEXT", false, false, []⟩
  else if trimmed = "---".data then ⟨['\n'], "NORMAL_TEXT", false, false, []⟩
  else
    let st := headingSplit line trimmed
    let lt :=
      if st.1 = "NORMAL_TEXT" then listSplit st.2 else (false, false, st.2)
    let cr := extractSpans lt.2.2
    ⟨cr.1 ++ ['\n'], st.1, lt.1, lt.2.1, cr.2⟩

/-- Model of `strings.Split(markdown, "\n")` followed by the per-line
loop (docs.go:546-656): the ordered segment list. -/
def segmentsOf (markdown : List Char) : List Segment :=
  (markdown.splitOn '\n').map processLine

/-- The concatenated text blob inserted in one shot (docs.go:659-662). -/
def fullTextOf (markdown : List Char) : List Char :=
  ((segmentsOf markdown).map Segment.text).flatten

/-! ## Edit requests and the emitter -/

/-- Model of the `docs.Request` payloads the conversion emits
(docs.go:665-748) and the clearing delete (docs.go:513-524).  Only the
fields the core sets are modelled.  `updateTextStyle` carries the two
boolean flags and the list whose join is the request's `Fields` string
(docs.go:727-737). -/
inductive DocRequest where
  | insertText (index : Int) (text : List Char)
  | deleteRange (start stop : Int)
  | updateParagraphStyle (start stop : Int) (namedStyle : String)
  | createParagraphBullets (start stop : Int) (preset : String)
  | updateTextStyle (start stop : Int) (bold italic : Bool)
      (fields : List String)
  deriving DecidableEq, Repr

/-- The `Fields` list of an emphasis edit (docs.go:729-737): `"bold"` is
appended when the range's bold flag is set, `"italic"` when italic is. -/
def fieldsForRange (r : FormatRange) : List String :=
  (if r.bold then ["bold"] else []) ++ (if r.italic then ["italic"] else [])

/-- The style requests one segment contributes (docs.go:685-751), given
the absolute start index of the segment.  Note the source computes the
segment's absolute end as `paraStartIdx + int64(len(seg.text))`, i.e. it
advances by the UTF-8 **byte** length of the text, not its UTF-16
code-unit count. -/
def segmentRequests (paraStartIdx : Int) (seg : Segment) : List DocRequest :=
  let paraEndIdx := paraStartIdx + (goStringLen seg.text : Int)
  (if seg.style ≠ "" ∧ seg.style ≠ "NORMAL_TEXT" then
    [DocRequest.updateParagraphStyle paraStartIdx paraEndIdx seg.style]
  else []) ++
  (if seg.isBullet then
    [DocRequest.createParagraphBullets paraStartIdx paraEndIdx
      "BULLET_DISC_CIRCLE_SQUARE"]
  else if seg.isNumbered then
    [DocRequest.createParagraphBullets paraStartIdx paraEndIdx
      "NUMBERED_DECIMAL_NESTED"]
  else []) ++
  seg.ranges.map (fun r =>
    DocRequest.updateTextStyle (paraStartIdx + r.start) (paraStartIdx + r.stop)
      r.bold r.italic (fieldsForRange r))

/-- The full style-request list (docs.go:682-751): segments are walked in
order, `idx` advancing by each segment's byte length. -/
def styleRequests (idx : Int) : List Segment → List DocRequest
  | [] => []
  | seg :: rest =>
      segmentRequests idx seg ++
        styleRequests (idx + (goStringLen seg.text : Int)) rest

/-- The absolute `(paraStartIdx, paraEndIdx)` range the emitter assigns
to each segment (docs.go:685-688), in segment order: the assembler of
the specification.  As in the source, the end is `start + byte length`. -/
def segmentAbsRanges (idx : Int) : List Segment → List (Int × Int)
  | [] => []
  | seg :: rest =>
      (idx, idx + (goStringLen seg.text : Int)) ::
        segmentAbsRanges (idx + (goStringLen seg.text : Int)) rest

/-- The per-call request cap of the batching loop (docs.go:755). -/
def batchSize : Nat := 50

/-- Model of the style-batch submission loop (docs.go:753-769), with the
collaborator's per-call outcome abstracted as `oracle k` for the k-th
`batchUpdate` call (`none` = success, `some e` = failure).  Returns the
batches actually submitted, in order, and the error returned to the
caller.  Each iteration drops `batchSize > 0` requests, so
`fuel = length + 1` (as supplied by the wrapper) suffices. -/
def submitBatchesGo (oracle : Nat → Option ε) :
    Nat → Nat → List α → List (List α) × Option ε
  | 0, _, _ => ([], none)
  | _ + 1, _, [] => ([], none)
  | fuel + 1, k, x :: rest =>
      let batch := (x :: rest).take batchSize
      match oracle k with
      | some e => ([batch], some e)
      | none =>
          let r := submitBatchesGo oracle fuel (k + 1)
            ((x :: rest).drop batchSize)
          (batch :: r.1, r.2)

/-- The batching loop on a whole request list (docs.go:753-769). -/
def submitStyleBatches (oracle : Nat → Option ε) (reqs : List α) :
    List (List α) × Option ε :=
  submitBatchesGo oracle (reqs.length + 1) 0 reqs

/-! ## The document store

Modelled from the spec: the external collaborator (spec section 6) is a
document store holding, per document, text that always ends with a
mandatory trailing newline, addressed by UTF-16 code-unit indices
starting at 1, with `get` returning the body and its end-of-document
offset and `batchUpdate` applying an ordered edit list.  A document is a
list of cells, one per character, each carrying its applied styling, so
deleting text also deletes the styling attached to it. -/

/-- One character of a document body together with its styling. -/
structure Cell where
  ch : Char
  bold : Bool
  italic : Bool
  namedStyle : String
  bullet : Option String
  deriving DecidableEq, Repr

/-- A freshly inserted, unstyled cell. -/
def plainCell (c : Char) : Cell := ⟨c, false, false, "NORMAL_TEXT", none⟩

/-- The document body: cells in order. -/
abbrev DocState := List Cell

/-- UTF-16 width of a cell's character. -/
def cellWidth (c : Cell) : Int := if 0x10000 ≤ c.ch.toNat then 2 else 1

/-- Total UTF-16 code-unit length of a body. -/
def docWidth : DocState → Int
  | [] => 0
  | c :: rest => cellWidth c + docWidth rest

/-- Modelled from the spec: the end-of-document offset `get` reports.
Body text starts at index 1, so the end offset is 1 plus the UTF-16
length of the body text; an empty document (bare newline) has end 2. -/
def docEndIndex (s : DocState) : Int := 1 + docWidth s

/-- Split a body at a UTF-16 offset (counted from the body start). -/
def splitAtWidth : Int → DocState → DocState × DocState
  | _, [] => ([], [])
  | off, c :: rest =>
      if off ≤ 0 then ([], c :: rest)
      else
        let p := splitAtWidth (off - cellWidth c) rest
        (c :: p.1, p.2)

/-- Delete the cells whose UTF-16 position (0-based, accumulated in
`pos`) lies in the document range `[start, stop)` (1-based). -/
def deleteCells (start stop : Int) : Int → DocState → DocState
  | _, [] => []
  | pos, c :: rest =>
      (if start - 1 ≤ pos ∧ pos < stop - 1 then [] else [c]) ++
        deleteCells start stop (pos + cellWidth c) rest

/-- The effect of one style request on one cell at position `pos`: if the
cell lies in the request's range the request's constant field updates are
applied, otherwise the cell is unchanged.  `updateTextStyle` only writes
the fields named in its field mask (docs.go:730-736 set a flag exactly
when its field name is listed). -/
def applyCellReq (r : DocRequest) (pos : Int) (c : Cell) : Cell :=
  match r with
  | DocRequest.updateParagraphStyle a b st =>
      if a - 1 ≤ pos ∧ pos < b - 1 then
        ⟨c.ch, c.bold, c.italic, st, c.bullet⟩
      else c
  | DocRequest.createParagraphBullets a b preset =>
      if a - 1 ≤ pos ∧ pos < b - 1 then
        ⟨c.ch, c.bold, c.italic, c.namedStyle, some preset⟩
      else c
  | DocRequest.updateTextStyle a b bo it _ =>
      if a - 1 ≤ pos ∧ pos < b - 1 then
        ⟨c.ch, (if bo then true else c.bold), (if it then true else c.italic),
         c.namedStyle, c.bullet⟩
      else c
  | _ => c

/-- Apply one style request across a body, tracking positions. -/
def styleMap (r : DocRequest) : Int → DocState → DocState
  | _, [] => []
  | pos, c :: rest =>
      applyCellReq r pos c :: styleMap r (pos + cellWidth c) rest

/-- Modelled from the spec: the document store's application of a single
edit request. -/
def docApply (s : DocState) (r : DocRequest) : DocState :=
  match r with
  | DocRequest.insertText i txt =>
      let p := splitAtWidth (i - 1) s
      p.1 ++ txt.map plainCell ++ p.2
  | DocRequest.deleteRange a b => deleteCells a b 0 s
  | _ => styleMap r 0 s

/-- Modelled from the spec: `batchUpdate` applies an ordered edit list. -/
def docApplyAll (s : DocState) (reqs : List DocRequest) : DocState :=
  reqs.foldl docApply s

/-- The delete requests `clearDocsContent` issues given the fetched body
content's end indices (docs.go:488-528): none when the body is absent or
empty or the maximal end index is at most 2 (document already empty),
otherwise exactly one delete of `[1, endIndex-1)`, keeping the final
newline. -/
def clearRequestsFromContent (content : Option (List Int)) :
    List DocRequest :=
  match content with
  | none => []
  | some ends =>
      if ends.isEmpty then []
      else
        let endIndex := ends.foldl (fun acc e => if acc < e then e else acc) 0
        if endIndex ≤ 2 then [] else [DocRequest.deleteRange 1 (endIndex - 1)]

/-- `clearDocsContent` against the modelled store: the fetched body is
one content element whose end index is the document's end offset. -/
def clearRequestsOf (s : DocState) : List DocRequest :=
  clearRequestsFromContent (some [docEndIndex s])

/-- The clearing step's effect on the document. -/
def clearDoc (s : DocState) : DocState := docApplyAll s (clearRequestsOf s)

/-- The ordered request trace of `DocsWriteCmd.Run` (docs.go:343-384):
clear, then insert the whole blob at index 1, then the style requests. -/
def writeRunTrace (markdown : List Char) (s : DocState) : List DocRequest :=
  clearRequestsOf s ++
    (DocRequest.insertText 1 (fullTextOf markdown) ::
      styleRequests 1 (segmentsOf markdown))

/-- The final document state after a successful `write` (docs.go:343-384):
the full request trace applied in order. -/
def writeDoc (markdown : List Char) (s : DocState) : DocState :=
  docApplyAll s (writeRunTrace markdown s)

/-- The insertion index `DocsAppendCmd.Run` picks (docs.go:424-427):
1 when the fetched document's body is nil or its content list is empty,
otherwise the `EndIndex` of the last content element. -/
def appendStartIndex (content : Option (List Int)) : Int :=
  match content with
  | none => 1
  | some ends =>
      if h : 0 < ends.length then ends.getLast (by
        intro hnil
        simp [hnil] at h)
      else 1

/-! ## Basic lemmas -/

theorem utf16_nonneg (l : List Char) : 0 ≤ utf16CodeUnitCount l := by
  induction l with
  | nil => simp [utf16CodeUnitCount]
  | cons c rest ih =>
      simp only [utf16CodeUnitCount]
      have : (0 : Int) < if 0x10000 ≤ c.toNat then 2 else 1 := by
        split <;> norm_num
      omega

theorem utf16_append (a b : List Char) :
    utf16CodeUnitCount (a ++ b) =
      utf16CodeUnitCount a + utf16CodeUnitCount b := by
  induction a with
  | nil => simp [utf16CodeUnitCount]
  | cons c rest ih => simp [utf16CodeUnitCount, ih]; ring

theorem isPrefixOf_exists {p l : List Char} :
    p.isPrefixOf l = true ↔ ∃ t, l = p ++ t := by
  induction p generalizing l with
  | nil => simp [List.isPrefixOf]
  | cons c rest ih =>
      cases l with
      | nil => simp [List.isPrefixOf]
      | cons d t =>
          simp only [List.isPrefixOf, Bool.and_eq_true, beq_iff_eq, ih,
            List.cons_append, List.cons.injEq]
          constructor
          · rintro ⟨rfl, u, rfl⟩; exact ⟨u, rfl, rfl⟩
          · rintro ⟨u, rfl, rfl⟩; exact ⟨rfl, u, rfl⟩

theorem strIndex_bound {pat l : List Char} {i : Nat}
    (hpat : pat ≠ []) (h : strIndex pat l = some i) :
    i + pat.length ≤ l.length := by
  induction l generalizing i with
  | nil =>
      simp only [strIndex] at h
      split at h
      · rename_i hpre
        obtain ⟨t, ht⟩ := isPrefixOf_exists.mp hpre
        cases pat
        · exact absurd rfl hpat
        · simp at ht
      · exact absurd h (by simp)
  | cons c rest ih =>
      simp only [strIndex] at h
      split at h
      · rename_i hpre
        obtain ⟨t, ht⟩ := isPrefixOf_exists.mp hpre
        cases h
        have hlen := congrArg List.length ht
        simp only [List.length_cons, List.length_append] at hlen
        simp only [List.length_cons]
        omega
      · rcases Option.map_eq_some'.mp h with ⟨j, hj, rfl⟩
        have := ih hj
        simp only [List.length_cons]
        omega

theorem strIndex_decomp {pat l : List Char} {i : Nat}
    (h : strIndex pat l = some i) :
    l = l.take i ++ pat ++ l.drop (i + pat.length) := by
  induction l generalizing i with
  | nil =>
      simp only [strIndex] at h
      split at h
      · rename_i hpre
        obtain ⟨t, ht⟩ := isPrefixOf_exists.mp hpre
        cases h
        cases pat
        · simp
        · simp at ht
      · exact absurd h (by simp)
  | cons c rest ih =>
      simp only [strIndex] at h
      split at h
      · rename_i hpre
        obtain ⟨t, ht⟩ := isPrefixOf_exists.mp hpre
        cases h
        rw [ht]
        simp [List.drop_left]
      · rcases Option.map_eq_some'.mp h with ⟨j, hj, rfl⟩
        have ih' := ih hj
        rw [List.take_succ_cons,
          show j + 1 + pat.length = (j + pat.length) + 1 from by omega,
          List.drop_succ_cons]
        simpa using congrArg (c :: ·) ih'

theorem strIndex_nil_of_nonempty {pat : List Char} (hpat : pat ≠ []) :
    strIndex pat [] = none := by
  simp only [strIndex]
  rw [if_neg]
  simp only [isPrefixOf_exists, not_exists]
  intro t ht
  cases pat
  · exact hpat rfl
  · simp at ht

theorem strIndex_double_none {l : List Char}
    (h : strIndex italicMarker l = none) :
    strIndex boldMarker l = none := by
  induction l with
  | nil => exact strIndex_nil_of_nonempty (by simp [boldMarker])
  | cons c rest ih =>
      simp only [strIndex, italicMarker] at h
      simp only [strIndex, boldMarker]
      split at h
      · exact absurd h (by simp)
      · rename_i hpre
        rw [if_neg]
        · rw [Option.map_eq_none'] at h ⊢
          exact ih (by simpa [italicMarker] using h)
        · simp only [isPrefixOf_exists, not_exists] at hpre ⊢
          intro t ht
          exact hpre (('*' :: t)) (by simpa using ht)

theorem utf16_boldMarker : utf16CodeUnitCount boldMarker = 2 := by decide

theorem utf16_italicMarker : utf16CodeUnitCount italicMarker = 1 := by decide

theorem pickMarker_true {o1 o2 : Option Nat} {p : Nat}
    (h : pickMarker o1 o2 = some (true, p)) : o1 = some p := by
  cases o1 <;> cases o2 <;> simp only [pickMarker] at h
  · exact absurd h (by simp)
  · exact absurd h (by simp)
  · simpa using h
  · split at h <;> simp_all

theorem pickMarker_false {o1 o2 : Option Nat} {p : Nat}
    (h : pickMarker o1 o2 = some (false, p)) : o2 = some p := by
  cases o1 <;> cases o2 <;> simp only [pickMarker] at h
  · exact absurd h (by simp)
  · simpa using h
  · exact absurd h (by simp)
  · split at h <;> simp_all

/-- Structural invariant of the scanning loop: every recorded range
delimits, in UTF-16 code units measured from `currentOffset`, a
decomposition of the clean text the loop returns, and carries exactly
one emphasis flag. -/
theorem scanSpans_ranges_spec :
    ∀ (fuel : Nat) (tempText : List Char) (off : Int),
      tempText.length < fuel →
      ∀ r ∈ (scanSpans fuel tempText off).2,
        ∃ pre mid post,
          (scanSpans fuel tempText off).1 = pre ++ mid ++ post ∧
          r.start = off + utf16CodeUnitCount pre ∧
          r.stop = off + utf16CodeUnitCount pre + utf16CodeUnitCount mid ∧
          ((r.bold = true ∧ r.italic = false) ∨
           (r.bold = false ∧ r.italic = true)) := by
  intro fuel
  induction fuel with
  | zero => intro tempText off hlen; omega
  | succ fuel ih =>
      intro tempText off hlen r hr
      cases hpick : pickMarker (strIndex boldMarker tempText)
          (strIndex italicMarker tempText) with
      | none =>
          simp only [scanSpans, hpick] at hr
          exact absurd hr (by simp)
      | some bp =>
          obtain ⟨which, p⟩ := bp
          cases which
          · -- italic branch
            have hidx := pickMarker_false hpick
            have hb1 : p + 1 ≤ tempText.length := by
              have := strIndex_bound (by simp [italicMarker]) hidx
              simpa [italicMarker] using this
            cases hclose : strIndex italicMarker (tempText.drop (p + 1)) with
            | some e =>
                simp only [scanSpans, hpick, hclose] at hr ⊢
                rcases List.mem_cons.mp hr with rfl | hr'
                · exact ⟨tempText.take p, (tempText.drop (p + 1)).take e,
                    (scanSpans fuel ((tempText.drop (p + 1)).drop (e + 1))
                      (off + utf16CodeUnitCount (tempText.take p) +
                        utf16CodeUnitCount ((tempText.drop (p + 1)).take e))).1,
                    rfl, rfl, rfl, Or.inr ⟨rfl, rfl⟩⟩
                · have hlen' :
                      ((tempText.drop (p + 1)).drop (e + 1)).length < fuel := by
                    simp only [List.length_drop]; omega
                  obtain ⟨pre, mid, post, hclean, hs, hstop, hflag⟩ :=
                    ih _ _ hlen' r hr'
                  refine ⟨tempText.take p ++ ((tempText.drop (p + 1)).take e
                    ++ pre), mid, post, ?_, ?_, ?_, hflag⟩
                  · rw [hclean]; simp
                  · rw [hs]; simp [utf16_append]; ring
                  · rw [hstop]; simp [utf16_append]; ring
            | none =>
                simp only [scanSpans, hpick, hclose] at hr ⊢
                have hlen' : (tempText.drop (p + 1)).length < fuel := by
                  simp only [List.length_drop]; omega
                obtain ⟨pre, mid, post, hclean, hs, hstop, hflag⟩ :=
                  ih _ _ hlen' r hr
                refine ⟨tempText.take p ++ (italicMarker ++ pre), mid, post,
                  ?_, ?_, ?_, hflag⟩
                · rw [hclean]; simp
                · rw [hs]; simp [utf16_append, utf16_italicMarker]; ring
                · rw [hstop]; simp [utf16_append, utf16_italicMarker]; ring
          · -- bold branch
            have hidx := pickMarker_true hpick
            have hb2 : p + 2 ≤ tempText.length := by
              have := strIndex_bound (by simp [boldMarker]) hidx
              simpa [boldMarker] using this
            cases hclose : strIndex boldMarker (tempText.drop (p + 2)) with
            | some e =>
                simp only [scanSpans, hpick, hclose] at hr ⊢
                rcases List.mem_cons.mp hr with rfl | hr'
                · exact ⟨tempText.take p, (tempText.drop (p + 2)).take e,
                    (scanSpans fuel ((tempText.drop (p + 2)).drop (e + 2))
                      (off + utf16CodeUnitCount (tempText.take p) +
                        utf16CodeUnitCount ((tempText.drop (p + 2)).take e))).1,
                    rfl, rfl, rfl, Or.inl ⟨rfl, rfl⟩⟩
                · have hlen' :
                      ((tempText.drop (p + 2)).drop (e + 2)).length < fuel := by
                    simp only [List.length_drop]; omega
                  obtain ⟨pre, mid, post, hclean, hs, hstop, hflag⟩ :=
                    ih _ _ hlen' r hr'
                  refine ⟨tempText.take p ++ ((tempText.drop (p + 2)).take e
                    ++ pre), mid, post, ?_, ?_, ?_, hflag⟩
                  · rw [hclean]; simp
                  · rw [hs]; simp [utf16_append]; ring
                  · rw [hstop]; simp [utf16_append]; ring
            | none =>
                simp only [scanSpans, hpick, hclose] at hr ⊢
                have hlen' : (tempText.drop (p + 2)).length < fuel := by
                  simp only [List.length_drop]; omega
                obtain ⟨pre, mid, post, hclean, hs, hstop, hflag⟩ :=
                  ih _ _ hlen' r hr
                refine ⟨tempText.take p ++ (boldMarker ++ pre), mid, post,
                  ?_, ?_, ?_, hflag⟩
                · rw [hclean]; simp
                · rw [hs]; simp [utf16_append, utf16_boldMarker]; ring
                · rw [hstop]; simp [utf16_append, utf16_boldMarker]; ring

/-- Every segment produced by the per-line loop carries the clean text
and ranges of one `extractSpans` run, with a newline appended to the
text (the blank and `---` branches coincide with `extractSpans []`). -/
theorem processLine_view (line : List Char) :
    ∃ t, (processLine line).ranges = (extractSpans t).2 ∧
      (processLine line).text = (extractSpans t).1 ++ ['\n'] := by
  simp only [processLine]
  split
  · exact ⟨[], rfl, rfl⟩
  · split
    · exact ⟨[], rfl, rfl⟩
    · exact ⟨_, rfl, rfl⟩

/-! ## Claim C4 -/

/-- C4: every emphasis range the span extractor records delimits, at
UTF-16 code-unit offsets (non-BMP characters counted as 2 units by
`utf16CodeUnitCount`), a decomposition of the marker-stripped plain text
of the line: the range starts at the UTF-16 length of the stripped text
preceding the span and ends after the span's UTF-16 length. -/
theorem emphasis_offsets_are_utf16 (text : List Char) (r : FormatRange)
    (hr : r ∈ (extractSpans text).2) :
    ∃ pre mid post,
      (extractSpans text).1 = pre ++ mid ++ post ∧
      r.start = utf16CodeUnitCount pre ∧
      r.stop = utf16CodeUnitCount pre + utf16CodeUnitCount mid := by
  obtain ⟨pre, mid, post, hclean, hs, hstop, _⟩ :=
    scanSpans_ranges_spec (text.length + 1) text 0 (by omega) r hr
  exact ⟨pre, mid, post, hclean, by simpa using hs, by simpa using hstop⟩

/-- Witness for C4, at an input whose bold span is preceded by an emoji
outside the Basic Multilingual Plane: the recorded bold range starts at
3 = utf16("😀 ") (the emoji counts as 2 units; its byte count is 4 and
its code-point count 1). -/
theorem emphasis_offsets_are_utf16_witness :
    (extractSpans "😀 **b**".data).2 = [⟨3, 4, true, false⟩] ∧
    ∃ pre mid post,
      (extractSpans "😀 **b**".data).1 = pre ++ mid ++ post ∧
      (3 : Int) = utf16CodeUnitCount pre ∧
      (4 : Int) = utf16CodeUnitCount pre + utf16CodeUnitCount mid := by
  refine ⟨by decide, ?_⟩
  simpa using emphasis_offsets_are_utf16 ("😀 **b**".data)
    ⟨3, 4, true, false⟩ (by decide)

/-! ## Claim C9 -/

/-- C9: every recorded emphasis range is well-formed: `0 ≤ start ≤ stop`,
`stop` does not exceed the UTF-16 length of the segment's final plain
text, exactly one of the bold/italic flags is set, and the emitted
emphasis edit consequently updates exactly one text-style field. -/
theorem emphasis_ranges_well_formed (markdown : List Char) (seg : Segment)
    (hseg : seg ∈ segmentsOf markdown) (r : FormatRange)
    (hr : r ∈ seg.ranges) :
    0 ≤ r.start ∧ r.start ≤ r.stop ∧
    r.stop ≤ utf16CodeUnitCount seg.text ∧
    ((r.bold = true ∧ r.italic = false) ∨
     (r.bold = false ∧ r.italic = true)) ∧
    (fieldsForRange r).length = 1 := by
  simp only [segmentsOf] at hseg
  obtain ⟨line, _, rfl⟩ := List.mem_map.mp hseg
  obtain ⟨t, hran, htext⟩ := processLine_view line
  rw [hran] at hr
  obtain ⟨pre, mid, post, hclean, hs, hstop, hflag⟩ :=
    scanSpans_ranges_spec (t.length + 1) t 0 (by omega) r hr
  have hpre := utf16_nonneg pre
  have hmid := utf16_nonneg mid
  have hpost := utf16_nonneg post
  have hnl : utf16CodeUnitCount ['\n'] = 1 := by decide
  refine ⟨by omega, by omega, ?_, hflag, ?_⟩
  · rw [htext, show (extractSpans t).1 = pre ++ mid ++ post from hclean]
    simp only [utf16_append, hnl]
    omega
  · rcases hflag with ⟨hb, hi⟩ | ⟨hb, hi⟩ <;> simp [fieldsForRange, hb, hi]

/-- Witness for C9 at the markdown input `**a**`. -/
theorem emphasis_ranges_well_formed_witness :
    0 ≤ (⟨0, 1, true, false⟩ : FormatRange).start ∧
    (⟨0, 1, true, false⟩ : FormatRange).start ≤
      (⟨0, 1, true, false⟩ : FormatRange).stop ∧
    (⟨0, 1, true, false⟩ : FormatRange).stop ≤
      utf16CodeUnitCount (Segment.mk "a\n".data "NORMAL_TEXT" false false
        [⟨0, 1, true, false⟩]).text ∧
    (((⟨0, 1, true, false⟩ : FormatRange).bold = true ∧
      (⟨0, 1, true, false⟩ : FormatRange).italic = false) ∨
     ((⟨0, 1, true, false⟩ : FormatRange).bold = false ∧
      (⟨0, 1, true, false⟩ : FormatRange).italic = true)) ∧
    (fieldsForRange ⟨0, 1, true, false⟩).length = 1 :=
  emphasis_ranges_well_formed "**a**".data
    (Segment.mk "a\n".data "NORMAL_TEXT" false false [⟨0, 1, true, false⟩])
    (by decide) ⟨0, 1, true, false⟩ (by decide)

/-! ## Claim C5 -/

/-- C5: at any scan state in which both a `**` run and a bare `*` occur
ahead, the `**` is treated as the delimiter whenever it occurs at or
before the next single `*`: a closing `**` resolves a bold (never
italic) span whose start is the offset of the text before the `**`; an
unterminated `**` resolves no span at this position.  Only when the
single `*` strictly precedes the `**` is an italic span attempted. -/
theorem bold_delimiter_precedence (fuel : Nat) (tempText : List Char)
    (off : Int) (b i : Nat)
    (hb : strIndex boldMarker tempText = some b)
    (hi : strIndex italicMarker tempText = some i) :
    (b ≤ i →
      (∀ e, strIndex boldMarker (tempText.drop (b + 2)) = some e →
        (scanSpans (fuel + 1) tempText off).2.head? = some
          ⟨off + utf16CodeUnitCount (tempText.take b),
           off + utf16CodeUnitCount (tempText.take b) +
             utf16CodeUnitCount ((tempText.drop (b + 2)).take e),
           true, false⟩) ∧
      (strIndex boldMarker (tempText.drop (b + 2)) = none →
        (scanSpans (fuel + 1) tempText off).2 =
          (scanSpans fuel (tempText.drop (b + 2))
            (off + utf16CodeUnitCount (tempText.take b) + 2)).2)) ∧
    (i < b →
      (∀ e, strIndex italicMarker (tempText.drop (i + 1)) = some e →
        (scanSpans (fuel + 1) tempText off).2.head? = some
          ⟨off + utf16CodeUnitCount (tempText.take i),
           off + utf16CodeUnitCount (tempText.take i) +
             utf16CodeUnitCount ((tempText.drop (i + 1)).take e),
           false, true⟩) ∧
      (strIndex italicMarker (tempText.drop (i + 1)) = none →
        (scanSpans (fuel + 1) tempText off).2 =
          (scanSpans fuel (tempText.drop (i + 1))
            (off + utf16CodeUnitCount (tempText.take i) + 1)).2)) := by
  constructor
  · intro hbi
    have hp : pickMarker (strIndex boldMarker tempText)
        (strIndex italicMarker tempText) = some (true, b) := by
      simp [pickMarker, hb, hi, hbi]
    constructor
    · intro e he
      simp [scanSpans, hp, he]
    · intro he
      simp [scanSpans, hp, he]
  · intro hib
    have hp : pickMarker (strIndex boldMarker tempText)
        (strIndex italicMarker tempText) = some (false, i) := by
      simp only [pickMarker, hb, hi]
      rw [if_neg (by omega)]
    constructor
    · intro e he
      simp [scanSpans, hp, he]
    · intro he
      simp [scanSpans, hp, he]

/-- Witness for C5 at the scan state `x **b** *i*`, where the next `**`
(position 2) and the next single `*` (also position 2) coincide, so the
bold branch fires: the head range is bold, never italic. -/
theorem bold_delimiter_precedence_witness :
    ((2 ≤ 2 →
      (∀ e, strIndex boldMarker ("x **b** *i*".data.drop (2 + 2)) = some e →
        (scanSpans (11 + 1) "x **b** *i*".data 0).2.head? = some
          ⟨0 + utf16CodeUnitCount ("x **b** *i*".data.take 2),
           0 + utf16CodeUnitCount ("x **b** *i*".data.take 2) +
             utf16CodeUnitCount (("x **b** *i*".data.drop (2 + 2)).take e),
           true, false⟩) ∧
      (strIndex boldMarker ("x **b** *i*".data.drop (2 + 2)) = none →
        (scanSpans (11 + 1) "x **b** *i*".data 0).2 =
          (scanSpans 11 ("x **b** *i*".data.drop (2 + 2))
            (0 + utf16CodeUnitCount ("x **b** *i*".data.take 2) + 2)).2)) ∧
    (2 < 2 →
      (∀ e, strIndex italicMarker ("x **b** *i*".data.drop (2 + 1)) = some e →
        (scanSpans (11 + 1) "x **b** *i*".data 0).2.head? = some
          ⟨0 + utf16CodeUnitCount ("x **b** *i*".data.take 2),
           0 + utf16CodeUnitCount ("x **b** *i*".data.take 2) +
             utf16CodeUnitCount (("x **b** *i*".data.drop (2 + 1)).take e),
           false, true⟩) ∧
      (strIndex italicMarker ("x **b** *i*".data.drop (2 + 1)) = none →
        (scanSpans (11 + 1) "x **b** *i*".data 0).2 =
          (scanSpans 11 ("x **b** *i*".data.drop (2 + 1))
            (0 + utf16CodeUnitCount ("x **b** *i*".data.take 2) + 1)).2))) ∧
    (scanSpans (11 + 1) "x **b** *i*".data 0).2.head? =
      some ⟨2, 3, true, false⟩ :=
  ⟨bold_delimiter_precedence 11 "x **b** *i*".data 0 2 2
    (by decide) (by decide),
   by decide⟩

/-! ## Claim C7 -/

/-- The scan returns its input untouched, recording nothing, when no
marker occurs in it. -/
theorem scanSpans_no_markers {tt : List Char}
    (h : strIndex italicMarker tt = none) :
    ∀ (fuel : Nat) (off : Int), scanSpans fuel tt off = (tt, []) := by
  intro fuel off
  cases fuel with
  | zero => rfl
  | succ fuel =>
      have hb := strIndex_double_none h
      simp [scanSpans, pickMarker, h, hb]

/-- C7: at any scan state whose chosen opening marker has no matching
closer, the scanner degrades to literal text for that marker: the marker
characters are copied verbatim into the plain output, this step records
no emphasis range, the scan simply continues after the literal marker
(so later spans on the same line are still processed), and every range
it ever records starts at or beyond the offset just past the literal
marker — no emphasis range is recorded for the unterminated marker
itself.  First conjunct: an unterminated `**` (the bold branch is the
one chosen: the `**` is at or before any single `*`, and no closing `**`
follows); the whole scan's ranges are exactly the continuation's.
Second conjunct: an unterminated single `*` in the italic branch — any
later `*` would close it, so no `*` follows at all and the entire
remainder is literal with zero ranges. -/
theorem unterminated_marker_literal (fuel : Nat) (tempText : List Char)
    (off : Int) :
    (∀ b, strIndex boldMarker tempText = some b →
       (∀ i, strIndex italicMarker tempText = some i → b ≤ i) →
       strIndex boldMarker (tempText.drop (b + 2)) = none →
       tempText.length ≤ fuel →
       scanSpans (fuel + 1) tempText off =
         (tempText.take b ++ boldMarker ++
            (scanSpans fuel (tempText.drop (b + 2))
              (off + utf16CodeUnitCount (tempText.take b) + 2)).1,
          (scanSpans fuel (tempText.drop (b + 2))
            (off + utf16CodeUnitCount (tempText.take b) + 2)).2) ∧
       (∀ r ∈ (scanSpans (fuel + 1) tempText off).2,
          off + utf16CodeUnitCount (tempText.take b) + 2 ≤ r.start)) ∧
    (∀ i, strIndex italicMarker tempText = some i →
       (∀ b, strIndex boldMarker tempText = some b → i < b) →
       strIndex italicMarker (tempText.drop (i + 1)) = none →
       scanSpans (fuel + 1) tempText off = (tempText, [])) := by
  constructor
  · intro b hb hile hclose hfuel
    have hp : pickMarker (strIndex boldMarker tempText)
        (strIndex italicMarker tempText) = some (true, b) := by
      cases hio : strIndex italicMarker tempText with
      | none => simp [pickMarker, hb, hio]
      | some i => simp [pickMarker, hb, hio, hile i hio]
    have heq : scanSpans (fuel + 1) tempText off =
        (tempText.take b ++ boldMarker ++
           (scanSpans fuel (tempText.drop (b + 2))
             (off + utf16CodeUnitCount (tempText.take b) + 2)).1,
         (scanSpans fuel (tempText.drop (b + 2))
           (off + utf16CodeUnitCount (tempText.take b) + 2)).2) := by
      simp [scanSpans, hp, hclose]
    refine ⟨heq, ?_⟩
    intro r hr
    rw [heq] at hr
    have hlen2 : b + 2 ≤ tempText.length := by
      have := strIndex_bound (by simp [boldMarker]) hb
      simpa [boldMarker] using this
    have hlen' : (tempText.drop (b + 2)).length < fuel := by
      simp only [List.length_drop]
      omega
    obtain ⟨pre, _, _, _, hs, _, _⟩ :=
      scanSpans_ranges_spec fuel (tempText.drop (b + 2))
        (off + utf16CodeUnitCount (tempText.take b) + 2) hlen' r hr
    have := utf16_nonneg pre
    omega
  · intro i hi hlt hafter
    have hp : pickMarker (strIndex boldMarker tempText)
        (strIndex italicMarker tempText) = some (false, i) := by
      cases hbo : strIndex boldMarker tempText with
      | none => simp [pickMarker, hbo, hi]
      | some b =>
          simp only [pickMarker, hbo, hi]
          rw [if_neg (by have := hlt b hbo; omega)]
    have hrec := scanSpans_no_markers hafter
    simp only [scanSpans, hp, hafter, hrec]
    rw [show tempText.take i ++ italicMarker ++ tempText.drop (i + 1) =
      tempText from by
      simpa [italicMarker] using (strIndex_decomp hi).symm]

/-- Witness for C7.  At the line `a **b *c*` the `**` at position 2 has
no closing `**`: the theorem applies (first conjunct), and concretely
the extractor emits the `**` literally, still records the later italic
span over `c` — whose start 6 lies beyond the literal marker (offset
`0 + utf16("a ") + 2 = 4`) — and records nothing for the `**` itself.
The spec's own example `a **b` yields the literal text with zero ranges,
a single segment `a **b\n`. -/
theorem unterminated_marker_literal_witness :
    (scanSpans (9 + 1) "a **b *c*".data 0 =
       ("a **b *c*".data.take 2 ++ boldMarker ++
          (scanSpans 9 ("a **b *c*".data.drop (2 + 2))
            (0 + utf16CodeUnitCount ("a **b *c*".data.take 2) + 2)).1,
        (scanSpans 9 ("a **b *c*".data.drop (2 + 2))
          (0 + utf16CodeUnitCount ("a **b *c*".data.take 2) + 2)).2) ∧
     (∀ r ∈ (scanSpans (9 + 1) "a **b *c*".data 0).2,
        0 + utf16CodeUnitCount ("a **b *c*".data.take 2) + 2 ≤ r.start)) ∧
    extractSpans "a **b *c*".data =
      ("a **b c".data, [⟨6, 7, false, true⟩]) ∧
    extractSpans "a **b".data = ("a **b".data, []) ∧
    segmentsOf "a **b".data =
      [⟨"a **b\n".data, "NORMAL_TEXT", false, false, []⟩] := by
  refine ⟨?_, by decide, by decide, by decide⟩
  exact (unterminated_marker_literal 9 "a **b *c*".data 0).1 2
    (by decide)
    (by intro i hi
        have h2 : strIndex italicMarker "a **b *c*".data = some 2 := by
          decide
        rw [h2, Option.some.injEq] at hi
        omega)
    (by decide) (by decide)

/-! ## Claim C6 -/

/-- The heading prefixes and the block styles they select, in the order
the source's switch tests them (docs.go:567-579). -/
def headingRules : List (List Char × String) :=
  [("### ".data, "HEADING_3"), ("## ".data, "HEADING_2"),
   ("# ".data, "HEADING_1")]

/-- C6 (amended): when a line's whitespace-trimmed form starts with a
heading prefix, the tokenizer assigns the corresponding heading style
(matching done on the trimmed line, and the three prefixes are mutually
exclusive so the first match wins), and the remaining text is
`strings.TrimPrefix(line, prefix)`: the line with the prefix removed
when the untrimmed line itself starts with it — and the unchanged line
otherwise (see the counterexample for an indented heading). -/
theorem heading_classified_on_trimmed (line p : List Char) (st : String)
    (hmem : (p, st) ∈ headingRules)
    (ht : p.isPrefixOf (goTrimSpace line) = true) :
    headingSplit line (goTrimSpace line) = (st, goTrimPrefix line p) ∧
    (p.isPrefixOf line = true →
      goTrimPrefix line p = line.drop p.length) := by
  have hstrip : ∀ q : List Char, q.isPrefixOf line = true →
      goTrimPrefix line q = line.drop q.length := by
    intro q hq
    simp [goTrimPrefix, hq]
  simp only [headingRules, List.mem_cons, List.not_mem_nil, or_false,
    Prod.mk.injEq] at hmem
  obtain ⟨t, htr⟩ := isPrefixOf_exists.mp ht
  rcases hmem with ⟨rfl, rfl⟩ | ⟨rfl, rfl⟩ | ⟨rfl, rfl⟩
  · exact ⟨by simp [headingSplit, ht], hstrip _⟩
  · have h3 : ("### ".data).isPrefixOf (goTrimSpace line) = false := by
      rw [htr]
      simp [List.isPrefixOf]
    exact ⟨by simp [headingSplit, ht, h3], hstrip _⟩
  · have h3 : ("### ".data).isPrefixOf (goTrimSpace line) = false := by
      rw [htr]
      simp [List.isPrefixOf]
    have h2 : ("## ".data).isPrefixOf (goTrimSpace line) = false := by
      rw [htr]
      simp [List.isPrefixOf]
    exact ⟨by simp [headingSplit, ht, h3, h2], hstrip _⟩

/-- Witness for C6 at the line `### hi` (which starts with its prefix
untrimmed, so the prefix really is stripped). -/
theorem heading_classified_on_trimmed_witness :
    headingSplit "### hi".data (goTrimSpace "### hi".data) =
      ("HEADING_3", goTrimPrefix "### hi".data ("### ".data)) ∧
    (("### ".data).isPrefixOf "### hi".data = true →
      goTrimPrefix "### hi".data ("### ".data) =
        "### hi".data.drop ("### ".data).length) :=
  heading_classified_on_trimmed "### hi".data ("### ".data) "HEADING_3"
    (by decide) (by decide)

/-- Counterexample to C6 as stated: for the indented line `  # a` the
trimmed form starts with `# `, the tokenizer assigns `HEADING_1`, but
the remaining text is the *unchanged* line — `strings.TrimPrefix` does
not fire because the untrimmed line starts with spaces — so the segment
text still contains the `# ` marker, and its length is not the line's
length minus the prefix length as removal would force. -/
theorem indented_heading_keeps_marker :
    ("# ".data).isPrefixOf (goTrimSpace "  # a".data) = true ∧
    headingSplit "  # a".data (goTrimSpace "  # a".data) =
      ("HEADING_1", "  # a".data) ∧
    processLine "  # a".data =
      ⟨"  # a\n".data, "HEADING_1", false, false, []⟩ ∧
    ("  # a".data).length ≠ ("  # a".data).length - ("# ".data).length :=
  ⟨by decide, by decide, by decide, by decide⟩

/-! ## Claim C10 -/

/-- C10: the append entry point inserts at index 1 when the fetched
document's body is nil or its content list is empty, and otherwise at
the `EndIndex` of the last content element. -/
theorem append_insertion_index :
    appendStartIndex none = 1 ∧ appendStartIndex (some []) = 1 ∧
    ∀ (l : List Int) (e : Int), appendStartIndex (some (l ++ [e])) = e := by
  refine ⟨rfl, rfl, ?_⟩
  intro l e
  rw [appendStartIndex, dif_pos (by simp)]
  exact List.getLast_append _

/-! ## Claim C1 -/

/-- C1 fails on the code: the emitter advances each segment's absolute
range by `int64(len(seg.text))` — the UTF-8 byte length — rather than by
`utf16CodeUnitCount(seg.text)` (docs.go:686-688), contradicting the
code's own comment that the Docs API expects UTF-16 code-unit offsets
(docs.go:592-593, 321-324).  For the markdown `😀` the single segment's
text `😀\n` has UTF-16 length 3, so the claimed range at start index 1
is `(1, 4)`; the code produces `(1, 6)` (byte length 5). -/
theorem assembler_range_uses_byte_length :
    segmentAbsRanges 1 (segmentsOf "😀".data) = [(1, 6)] ∧
    (segmentsOf "😀".data).map
      (fun seg => utf16CodeUnitCount seg.text) = [3] ∧
    (1 : Int) + 3 ≠ 6 :=
  ⟨by decide, by decide, by decide⟩

/-! ## Claim C2 -/

theorem submitBatchesGo_spec {α ε : Type} (oracle : Nat → Option ε) :
    ∀ (fuel k : Nat) (l : List α),
      l.length < fuel →
      (∀ b ∈ (submitBatchesGo oracle fuel k l).1,
         b ≠ [] ∧ b.length ≤ batchSize) ∧
      (∃ rest, ((submitBatchesGo oracle fuel k l).1).flatten ++ rest = l) ∧
      ((submitBatchesGo oracle fuel k l).2 = none →
        ((submitBatchesGo oracle fuel k l).1).flatten = l) ∧
      (∀ e, (submitBatchesGo oracle fuel k l).2 = some e →
        0 < (submitBatchesGo oracle fuel k l).1.length ∧
        oracle (k + ((submitBatchesGo oracle fuel k l).1.length - 1))
          = some e ∧
        (∀ j, j < (submitBatchesGo oracle fuel k l).1.length - 1 →
          oracle (k + j) = none)) := by
  intro fuel
  induction fuel with
  | zero => intro k l h; omega
  | succ fuel ih =>
      intro k l hlen
      cases l with
      | nil =>
          refine ⟨by simp [submitBatchesGo], ⟨[], by simp [submitBatchesGo]⟩,
            fun _ => by simp [submitBatchesGo], fun e he => ?_⟩
          simp [submitBatchesGo] at he
      | cons x rest =>
          cases ho : oracle k with
          | some e0 =>
              simp only [submitBatchesGo, ho]
              refine ⟨?_, ?_, ?_, ?_⟩
              · intro b hb
                simp only [List.mem_singleton] at hb
                subst hb
                refine ⟨by simp [batchSize], ?_⟩
                simp [batchSize]
              · exact ⟨(x :: rest).drop batchSize, by simp⟩
              · intro h; simp at h
              · intro e he
                simp only [Option.some.injEq] at he
                subst he
                refine ⟨by simp, by simpa using ho, ?_⟩
                intro j hj
                simp at hj
          | none =>
              have hlen' : ((x :: rest).drop batchSize).length < fuel := by
                simp only [List.length_drop, List.length_cons, batchSize]
                simp only [List.length_cons] at hlen
                omega
              obtain ⟨hball, ⟨tail, htail⟩, hnone, hsome⟩ :=
                ih (k + 1) ((x :: rest).drop batchSize) hlen'
              simp only [submitBatchesGo, ho]
              refine ⟨?_, ?_, ?_, ?_⟩
              · intro b hb
                rcases List.mem_cons.mp hb with rfl | hb'
                · exact ⟨by simp [batchSize], by simp [batchSize]⟩
                · exact hball b hb'
              · refine ⟨tail, ?_⟩
                simp only [List.flatten_cons, List.append_assoc, htail]
                exact List.take_append_drop _ _
              · intro h
                simp only [List.flatten_cons, hnone h]
                exact List.take_append_drop _ _
              · intro e he
                obtain ⟨hpos, hor, hprev⟩ := hsome e he
                refine ⟨by simp, ?_, ?_⟩
                · simp only [List.length_cons]
                  have harith : k + 1 +
                      ((submitBatchesGo oracle fuel (k + 1)
                        ((x :: rest).drop batchSize)).1.length - 1) =
                      k + ((submitBatchesGo oracle fuel (k + 1)
                        ((x :: rest).drop batchSize)).1.length + 1 - 1) := by
                    omega
                  rw [← harith]
                  exact hor
                · intro j hj
                  simp only [List.length_cons] at hj
                  cases j with
                  | zero => simpa using ho
                  | succ j' =>
                      have : j' < (submitBatchesGo oracle fuel (k + 1)
                          ((x :: rest).drop batchSize)).1.length - 1 := by
                        omega
                      have := hprev j' this
                      have harith : k + 1 + j' = k + (j' + 1) := by omega
                      rwa [harith] at this

/-- C2: the style edits are submitted in original list order as one or
more `batchUpdate` calls of at most `batchSize = 50` edits each (the
flattened submitted batches are a prefix of the edit list, the whole
list when every call succeeds); when call number `len-1` fails, all
earlier calls succeeded (their edits stay applied — no rollback), no
further batch is submitted, and the error is returned to the caller. -/
theorem style_batches_order_and_failure {α ε : Type}
    (oracle : Nat → Option ε) (reqs : List α) :
    (∀ b ∈ (submitStyleBatches oracle reqs).1,
       b ≠ [] ∧ b.length ≤ batchSize) ∧
    (∃ rest, ((submitStyleBatches oracle reqs).1).flatten ++ rest = reqs) ∧
    ((submitStyleBatches oracle reqs).2 = none →
      ((submitStyleBatches oracle reqs).1).flatten = reqs) ∧
    (∀ e, (submitStyleBatches oracle reqs).2 = some e →
      0 < (submitStyleBatches oracle reqs).1.length ∧
      oracle ((submitStyleBatches oracle reqs).1.length - 1) = some e ∧
      (∀ j, j < (submitStyleBatches oracle reqs).1.length - 1 →
        oracle j = none)) := by
  have h := submitBatchesGo_spec oracle (reqs.length + 1) 0 reqs (by omega)
  simpa [submitStyleBatches] using h

/-- Witness for C2: 120 edits under an oracle that fails the second
call; the theorem applies, and concretely two batches of 50 are
submitted, the first applied, and the error surfaced. -/
theorem style_batches_order_and_failure_witness :
    ((∀ b ∈ (submitStyleBatches (fun k => if k = 1 then some 9 else none)
        (List.replicate 120 (0 : Nat))).1,
       b ≠ [] ∧ b.length ≤ batchSize) ∧
     (∃ rest, ((submitStyleBatches (fun k => if k = 1 then some 9 else none)
        (List.replicate 120 (0 : Nat))).1).flatten ++ rest =
          List.replicate 120 (0 : Nat)) ∧
     ((submitStyleBatches (fun k => if k = 1 then some 9 else none)
        (List.replicate 120 (0 : Nat))).2 = none →
       ((submitStyleBatches (fun k => if k = 1 then some 9 else none)
          (List.replicate 120 (0 : Nat))).1).flatten =
            List.replicate 120 (0 : Nat)) ∧
     (∀ e, (submitStyleBatches (fun k => if k = 1 then some 9 else none)
        (List.replicate 120 (0 : Nat))).2 = some e →
       0 < (submitStyleBatches (fun k => if k = 1 then some 9 else none)
        (List.replicate 120 (0 : Nat))).1.length ∧
       (fun k => if k = 1 then some 9 else none)
         ((submitStyleBatches (fun k => if k = 1 then some 9 else none)
            (List.replicate 120 (0 : Nat))).1.length - 1) = some e ∧
       (∀ j, j < (submitStyleBatches (fun k => if k = 1 then some 9 else none)
          (List.replicate 120 (0 : Nat))).1.length - 1 →
         (fun k => if k = 1 then some 9 else none) j = none))) ∧
    submitStyleBatches (fun k => if k = 1 then some 9 else none)
      (List.replicate 120 (0 : Nat)) =
        ([List.replicate 50 0, List.replicate 50 0], some 9) :=
  ⟨style_batches_order_and_failure
      (fun k => if k = 1 then some 9 else none)
      (List.replicate 120 (0 : Nat)),
   by decide⟩

/-! ## Document-store lemmas -/

theorem cellWidth_pos (c : Cell) : 0 < cellWidth c := by
  simp only [cellWidth]; split <;> norm_num

theorem docWidth_nonneg (s : DocState) : 0 ≤ docWidth s := by
  induction s with
  | nil => simp [docWidth]
  | cons c rest ih =>
      have := cellWidth_pos c
      simp only [docWidth]
      omega

theorem docWidth_append (a b : DocState) :
    docWidth (a ++ b) = docWidth a + docWidth b := by
  induction a with
  | nil => simp [docWidth]
  | cons c rest ih =>
      simp only [List.cons_append, docWidth, List.append_eq, ih]; ring

theorem docWidth_eq_zero {s : DocState} (h : docWidth s = 0) : s = [] := by
  cases s with
  | nil => rfl
  | cons c rest =>
      exfalso
      have h1 := cellWidth_pos c
      have h2 := docWidth_nonneg rest
      simp only [docWidth] at h
      omega

theorem splitAtWidth_zero (s : DocState) : splitAtWidth 0 s = ([], s) := by
  cases s <;> simp [splitAtWidth]

/-- A delete of `[1, p0 + width(t) + 1)` starting at position `p0 ≥ 0`
removes every cell of `t` and keeps a final cell of width 1. -/
theorem deleteCells_last (c : Cell) :
    ∀ (t : DocState) (p0 : Int), 0 ≤ p0 →
      deleteCells 1 (p0 + docWidth t + 1) p0 (t ++ [c]) = [c] := by
  intro t
  induction t with
  | nil =>
      intro p0 hp0
      simp only [List.nil_append, docWidth, deleteCells]
      rw [if_neg (by omega)]
      rfl
  | cons x t ih =>
      intro p0 hp0
      have hx := cellWidth_pos x
      have ht := docWidth_nonneg t
      simp only [List.cons_append, deleteCells, docWidth]
      rw [if_pos (by constructor <;> omega)]
      have := ih (p0 + cellWidth x) (by omega)
      rw [show p0 + (cellWidth x + docWidth t) + 1 =
        p0 + cellWidth x + docWidth t + 1 from by ring]
      simpa using this

/-- The clearing requests, written as a single conditional on the
document's end offset. -/
theorem clearRequestsOf_eq (s : DocState) :
    clearRequestsOf s =
      if docEndIndex s ≤ 2 then []
      else [DocRequest.deleteRange 1 (docEndIndex s - 1)] := by
  have hn := docWidth_nonneg s
  have h1 : (0 : Int) < docEndIndex s := by
    simp only [docEndIndex]; omega
  simp only [clearRequestsOf, clearRequestsFromContent, List.isEmpty_cons,
    List.foldl_cons, List.foldl_nil]
  rw [if_neg (by simp), if_pos h1]

/-- Clearing a document that ends with a newline cell leaves exactly
that cell, whatever styling it carries: the mandatory trailing newline
stays in place, everything before it is deleted. -/
theorem clearDoc_canonical (t : DocState) (c : Cell) (hc : c.ch = '\n') :
    clearDoc (t ++ [c]) = [c] := by
  have hcw : cellWidth c = 1 := by simp only [cellWidth, hc]; decide
  have htw := docWidth_nonneg t
  have he : docEndIndex (t ++ [c]) = docWidth t + 2 := by
    simp only [docEndIndex, docWidth_append, docWidth, hcw]; ring
  rw [clearDoc, clearRequestsOf_eq]
  by_cases h : docEndIndex (t ++ [c]) ≤ 2
  · rw [if_pos h]
    have ht0 : docWidth t = 0 := by omega
    have := docWidth_eq_zero ht0
    subst this
    simp [docApplyAll]
  · rw [if_neg h]
    simp only [docApplyAll, List.foldl_cons, List.foldl_nil, docApply]
    rw [show docEndIndex (t ++ [c]) - 1 = 0 + docWidth t + 1 from by omega]
    exact deleteCells_last c t 0 le_rfl

/-! ## Claim C3 -/

/-- C3: on a document ending in its mandatory newline cell, `write`
first clears: when the end-of-document offset exceeds 2 it issues
exactly one delete of the range `[1, endOfDoc-1)` whose effect leaves
only the trailing newline cell; when the document is already empty
(`endOfDoc ≤ 2`) it issues no delete and leaves the document unchanged
(no error — the model is total and the source returns `nil`); in either
case the clearing requests are followed by the insertion of the
converted content at index 1 and then the style edits. -/
theorem write_clears_then_inserts (md : List Char) (t : DocState)
    (c : Cell) (hc : c.ch = '\n') :
    (2 < docEndIndex (t ++ [c]) →
      clearRequestsOf (t ++ [c]) =
        [DocRequest.deleteRange 1 (docEndIndex (t ++ [c]) - 1)] ∧
      clearDoc (t ++ [c]) = [c]) ∧
    (docEndIndex (t ++ [c]) ≤ 2 →
      clearRequestsOf (t ++ [c]) = [] ∧ clearDoc (t ++ [c]) = t ++ [c]) ∧
    writeRunTrace md (t ++ [c]) =
      clearRequestsOf (t ++ [c]) ++
        DocRequest.insertText 1 (fullTextOf md) ::
          styleRequests 1 (segmentsOf md) := by
  refine ⟨?_, ?_, rfl⟩
  · intro h
    exact ⟨by rw [clearRequestsOf_eq, if_neg (by omega)],
      clearDoc_canonical t c hc⟩
  · intro h
    have hreq := clearRequestsOf_eq (t ++ [c])
    rw [if_pos h] at hreq
    refine ⟨hreq, ?_⟩
    rw [clearDoc, hreq]
    simp [docApplyAll]

/-- Witness for C3 on the one-character document `a` plus its trailing
newline (end offset 3 > 2). -/
theorem write_clears_then_inserts_witness :
    ((2 < docEndIndex ([plainCell 'a'] ++ [plainCell '\n']) →
      clearRequestsOf ([plainCell 'a'] ++ [plainCell '\n']) =
        [DocRequest.deleteRange 1
          (docEndIndex ([plainCell 'a'] ++ [plainCell '\n']) - 1)] ∧
      clearDoc ([plainCell 'a'] ++ [plainCell '\n']) = [plainCell '\n']) ∧
    (docEndIndex ([plainCell 'a'] ++ [plainCell '\n']) ≤ 2 →
      clearRequestsOf ([plainCell 'a'] ++ [plainCell '\n']) = [] ∧
      clearDoc ([plainCell 'a'] ++ [plainCell '\n']) =
        [plainCell 'a'] ++ [plainCell '\n']) ∧
    writeRunTrace "x".data ([plainCell 'a'] ++ [plainCell '\n']) =
      clearRequestsOf ([plainCell 'a'] ++ [plainCell '\n']) ++
        DocRequest.insertText 1 (fullTextOf "x".data) ::
          styleRequests 1 (segmentsOf "x".data)) ∧
    docEndIndex ([plainCell 'a'] ++ [plainCell '\n']) = 3 :=
  ⟨write_clears_then_inserts "x".data [plainCell 'a'] (plainCell '\n') rfl,
   by decide⟩

/-! ## Claim C8: style application as field patches -/

/-- The style requests only ever set cell fields to constants; the net
effect of a request list at a position is captured by an optional value
per field (`none` = leave the field alone). -/
structure CellPatch where
  bold : Option Bool
  italic : Option Bool
  namedStyle : Option String
  bullet : Option String
  deriving DecidableEq, Repr

def emptyPatch : CellPatch := ⟨none, none, none, none⟩

def patchCell (p : CellPatch) (c : Cell) : Cell :=
  ⟨c.ch,
   match p.bold with | some v => v | none => c.bold,
   match p.italic with | some v => v | none => c.italic,
   match p.namedStyle with | some v => v | none => c.namedStyle,
   match p.bullet with | some v => some v | none => c.bullet⟩

/-- The patch one style request applies to a cell at position `pos`. -/
def reqPatch (r : DocRequest) (pos : Int) : CellPatch :=
  match r with
  | DocRequest.updateParagraphStyle a b st =>
      if a - 1 ≤ pos ∧ pos < b - 1 then ⟨none, none, some st, none⟩
      else emptyPatch
  | DocRequest.createParagraphBullets a b preset =>
      if a - 1 ≤ pos ∧ pos < b - 1 then ⟨none, none, none, some preset⟩
      else emptyPatch
  | DocRequest.updateTextStyle a b bo it _ =>
      if a - 1 ≤ pos ∧ pos < b - 1 then
        ⟨if bo then some true else none, if it then some true else none,
         none, none⟩
      else emptyPatch
  | _ => emptyPatch

/-- Apply `p` then `q`: per field, `q` wins when it sets the field. -/
def combinePatch (p q : CellPatch) : CellPatch :=
  ⟨match q.bold with | some v => some v | none => p.bold,
   match q.italic with | some v => some v | none => p.italic,
   match q.namedStyle with | some v => some v | none => p.namedStyle,
   match q.bullet with | some v => some v | none => p.bullet⟩

/-- The combined patch of a request list, applied left to right. -/
def netPatch (reqs : List DocRequest) (pos : Int) : CellPatch :=
  match reqs with
  | [] => emptyPatch
  | r :: rest => combinePatch (reqPatch r pos) (netPatch rest pos)

/-- A whole request list applied cell-wise as one patch per position. -/
def netMap (reqs : List DocRequest) : Int → DocState → DocState
  | _, [] => []
  | pos, c :: rest =>
      patchCell (netPatch reqs pos) c ::
        netMap reqs (pos + cellWidth c) rest

theorem patchCell_ch (p : CellPatch) (c : Cell) :
    (patchCell p c).ch = c.ch := rfl

theorem cellWidth_patch (p : CellPatch) (c : Cell) :
    cellWidth (patchCell p c) = cellWidth c := rfl

theorem patchCell_empty (c : Cell) : patchCell emptyPatch c = c := rfl

theorem applyCellReq_eq_patch (r : DocRequest) (pos : Int) (c : Cell) :
    applyCellReq r pos c = patchCell (reqPatch r pos) c := by
  cases r with
  | insertText i txt => rfl
  | deleteRange a b => rfl
  | updateParagraphStyle a b st =>
      simp only [applyCellReq, reqPatch]
      split <;> rfl
  | createParagraphBullets a b preset =>
      simp only [applyCellReq, reqPatch]
      split <;> rfl
  | updateTextStyle a b bo it fs =>
      simp only [applyCellReq, reqPatch]
      split
      · cases bo <;> cases it <;> rfl
      · rfl

theorem patch_combine (p q : CellPatch) (c : Cell) :
    patchCell q (patchCell p c) = patchCell (combinePatch p q) c := by
  obtain ⟨qb, qi, qn, qu⟩ := q
  cases qb <;> cases qi <;> cases qn <;> cases qu <;> rfl

theorem combine_self (p : CellPatch) : combinePatch p p = p := by
  obtain ⟨pb, pi, pn, pu⟩ := p
  cases pb <;> cases pi <;> cases pn <;> cases pu <;> rfl

theorem combine_empty_right (p : CellPatch) :
    combinePatch p emptyPatch = p := rfl

theorem patch_idem (p : CellPatch) (c : Cell) :
    patchCell p (patchCell p c) = patchCell p c := by
  rw [patch_combine, combine_self]

theorem netMap_nil_reqs : ∀ (pos : Int) (s : DocState),
    netMap [] pos s = s := by
  intro pos s
  induction s generalizing pos with
  | nil => rfl
  | cons c rest ih =>
      show patchCell (netPatch [] pos) c :: netMap [] (pos + cellWidth c) rest
        = c :: rest
      rw [ih]
      rfl

theorem netMap_cons_req (r : DocRequest) (W : List DocRequest) :
    ∀ (pos : Int) (s : DocState),
      netMap W pos (styleMap r pos s) = netMap (r :: W) pos s := by
  intro pos s
  induction s generalizing pos with
  | nil => rfl
  | cons c rest ih =>
      show patchCell (netPatch W pos) (applyCellReq r pos c) ::
          netMap W (pos + cellWidth (applyCellReq r pos c))
            (styleMap r (pos + cellWidth c) rest) =
        patchCell (netPatch (r :: W) pos) c ::
          netMap (r :: W) (pos + cellWidth c) rest
      rw [applyCellReq_eq_patch, patch_combine, cellWidth_patch, ih]
      rfl

/-- The requests the emitter produces never insert or delete text. -/
def isStyleReq : DocRequest → Prop
  | DocRequest.insertText _ _ => False
  | DocRequest.deleteRange _ _ => False
  | _ => True

theorem docApply_style {r : DocRequest} (h : isStyleReq r) (s : DocState) :
    docApply s r = styleMap r 0 s := by
  cases r with
  | insertText i txt => exact absurd h (by simp [isStyleReq])
  | deleteRange a b => exact absurd h (by simp [isStyleReq])
  | updateParagraphStyle a b st => rfl
  | createParagraphBullets a b preset => rfl
  | updateTextStyle a b bo it fs => rfl

theorem segmentRequests_styleOnly (i : Int) (seg : Segment) :
    ∀ r ∈ segmentRequests i seg, isStyleReq r := by
  intro r hr
  simp only [segmentRequests, List.mem_append] at hr
  rcases hr with (h | h) | h
  · split at h
    · simp only [List.mem_singleton] at h
      subst h; trivial
    · simp at h
  · split at h
    · simp only [List.mem_singleton] at h
      subst h; trivial
    · split at h
      · simp only [List.mem_singleton] at h
        subst h; trivial
      · simp at h
  · obtain ⟨a, _, rfl⟩ := List.mem_map.mp h
    trivial

theorem styleRequests_styleOnly :
    ∀ (segs : List Segment) (i : Int) (r : DocRequest),
      r ∈ styleRequests i segs → isStyleReq r := by
  intro segs
  induction segs with
  | nil => intro i r hr; simp [styleRequests] at hr
  | cons seg rest ih =>
      intro i r hr
      simp only [styleRequests, List.mem_append] at hr
      rcases hr with h | h
      · exact segmentRequests_styleOnly i seg r h
      · exact ih _ r h

theorem docApplyAll_style :
    ∀ (W : List DocRequest), (∀ r ∈ W, isStyleReq r) →
      ∀ s : DocState, docApplyAll s W = netMap W 0 s := by
  intro W
  induction W with
  | nil => intro _ s; simp [docApplyAll, netMap_nil_reqs]
  | cons r W ih =>
      intro hW s
      have hr : isStyleReq r := hW r (by simp)
      have hW' : ∀ x ∈ W, isStyleReq x := fun x hx => hW x (by simp [hx])
      show docApplyAll (docApply s r) W = netMap (r :: W) 0 s
      rw [docApply_style hr, ih hW', netMap_cons_req]

theorem netMap_append (W : List DocRequest) :
    ∀ (pos : Int) (a b : DocState),
      netMap W pos (a ++ b) =
        netMap W pos a ++ netMap W (pos + docWidth a) b := by
  intro pos a
  induction a generalizing pos with
  | nil =>
      intro b
      show netMap W pos b = netMap W (pos + docWidth ([] : DocState)) b
      rw [show pos + docWidth ([] : DocState) = pos from by
        simp [docWidth]]
  | cons c rest ih =>
      intro b
      show patchCell (netPatch W pos) c ::
          netMap W (pos + cellWidth c) (rest ++ b) =
        (patchCell (netPatch W pos) c :: netMap W (pos + cellWidth c) rest)
          ++ netMap W (pos + docWidth (c :: rest)) b
      rw [ih]
      rw [show pos + cellWidth c + docWidth rest =
        pos + docWidth (c :: rest) from by simp [docWidth]; ring]
      rfl

/-- C8: `write` is idempotent on any document ending with its mandatory
trailing newline cell: clearing reduces any such document to its final
newline cell, the same blob is reinserted at index 1, and re-applying
the same constant-valued style patches changes nothing, so the final
text and styling coincide with a single `write`. -/
theorem write_idempotent (md : List Char) (t : DocState) (c : Cell)
    (hc : c.ch = '\n') :
    writeDoc md (writeDoc md (t ++ [c])) = writeDoc md (t ++ [c]) := by
  have hstyle := fun r hr =>
    styleRequests_styleOnly (segmentsOf md) 1 r hr
  have hwrite : ∀ s : DocState, writeDoc md s =
      netMap (styleRequests 1 (segmentsOf md)) 0
        ((fullTextOf md).map plainCell ++ clearDoc s) := by
    intro s
    show docApplyAll s (writeRunTrace md s) = _
    rw [writeRunTrace, docApplyAll, List.foldl_append, List.foldl_cons]
    show docApplyAll
        (docApply (docApplyAll s (clearRequestsOf s))
          (DocRequest.insertText 1 (fullTextOf md)))
        (styleRequests 1 (segmentsOf md)) = _
    rw [docApplyAll_style _ hstyle]
    congr 1
    show (let p := splitAtWidth (1 - 1) (clearDoc s)
      p.1 ++ (fullTextOf md).map plainCell ++ p.2) = _
    rw [show (1 : Int) - 1 = 0 from by ring, splitAtWidth_zero]
    rfl
  have h1 : writeDoc md (t ++ [c]) =
      netMap (styleRequests 1 (segmentsOf md)) 0
        ((fullTextOf md).map plainCell) ++
      [patchCell (netPatch (styleRequests 1 (segmentsOf md))
          (0 + docWidth ((fullTextOf md).map plainCell)))
        c] := by
    rw [hwrite, clearDoc_canonical t c hc, netMap_append]
    rfl
  have hch : (patchCell (netPatch (styleRequests 1 (segmentsOf md))
      (0 + docWidth ((fullTextOf md).map plainCell))) c).ch = '\n' := by
    rw [patchCell_ch, hc]
  have netMap_singleton : ∀ (W : List DocRequest) (pos : Int) (x : Cell),
      netMap W pos [x] = [patchCell (netPatch W pos) x] := fun _ _ _ => rfl
  rw [hwrite (writeDoc md (t ++ [c])), h1,
    clearDoc_canonical _ _ hch, netMap_append, netMap_singleton, patch_idem]

/-- Witness for C8: writing `hi **b**` twice into the empty document
equals writing it once. -/
theorem write_idempotent_witness :
    writeDoc "hi **b**".data
        (writeDoc "hi **b**".data ([] ++ [plainCell '\n'])) =
      writeDoc "hi **b**".data ([] ++ [plainCell '\n']) :=
  write_idempotent "hi **b**".data [] (plainCell '\n') rfl

end Gogcli
